import Mathlib

/-!
Shallow embedding of `GcsResourceReportPoller`
(src/ray/gcs/gcs_server/gcs_resource_report_poller.cc).

The poller keeps, per known node, a heap-allocated `PullState` record
(`node_id`, `address`, `next_pull_time`, sentinel `-1` = never pulled /
full report required).  Shared mutable state:
  * `nodes_`   : hash map node id -> shared_ptr<PullState>  (the registry);
  * `to_pull_queue_` : deque of shared_ptr<PullState>, front = next to scan;
  * `inflight_pulls_` : counter of dispatched, uncompleted pulls.

Because `PullState` objects are shared and mutated in place, the embedding
gives each object an explicit address (`ref`, an index into a growing
`heap` list).  The queue and the set of pending completion callbacks hold
refs; `inflight_pulls_` is the length of the pending-callback list.  Two
ghost observation logs are added (`sink`: payloads handed to
`handle_resource_report_`; `dispatches`: each `request_report_` call with
its node ref, full-report flag and scan time); they record outputs and are
never read by the transition functions.
-/

namespace RayPoller

/-- Per-node polling record, mirroring `GcsResourceReportPoller::PullState`:
node id, RPC address material (opaque here), and the epoch-millisecond
`next_pull_time` with `-1` as the "unset / needs full report" sentinel. -/
structure PullState where
  node_id : Nat
  address : Nat
  next_pull_time : Int
  deriving Repr, DecidableEq

/-- Ghost record of one `request_report_` invocation: which `PullState`
object was dispatched, the `initial_report` flag passed to the transport,
and the scan time at which the dispatch happened. -/
structure DispatchRec where
  ref : Nat
  full : Bool
  time : Int
  deriving Repr, DecidableEq

/-- Heap read: `hget h r` is the `PullState` object at address `r`
(out-of-range reads return a junk default; reachable states never make
them). -/
def hget : List PullState → Nat → PullState
  | [], _ => ⟨0, 0, 0⟩
  | p :: _, 0 => p
  | _ :: ps, n + 1 => hget ps n

/-- Heap write: in-place mutation of the object at address `r`. -/
def hset : List PullState → Nat → PullState → List PullState
  | [], _, _ => []
  | _ :: ps, 0, q => q :: ps
  | p :: ps, n + 1, q => p :: hset ps n q

/-- Registry lookup (`nodes_.find` / `nodes_.count` on the key). -/
def alookup : List (Nat × Nat) → Nat → Option Nat
  | [], _ => none
  | (k, v) :: ps, n => if k = n then some v else alookup ps n

/-- Registry erase (`nodes_.erase(node_id)`): drops every pair with the
given key (reachable registries have distinct keys, so at most one). -/
def aerase : List (Nat × Nat) → Nat → List (Nat × Nat)
  | [], _ => []
  | p :: ps, n => if p.1 = n then aerase ps n else p :: aerase ps n

/-- Multiset count of a ref in a list of refs. -/
def mcount : List Nat → Nat → Nat
  | [], _ => 0
  | x :: xs, n => (if x = n then 1 else 0) + mcount xs n

/-- Remove one occurrence of a ref (used when a pending completion
callback fires). -/
def merase : List Nat → Nat → List Nat
  | [], _ => []
  | x :: xs, n => if x = n then xs else x :: merase xs n

/-- Whole shared state of the poller: object heap, registry, due queue,
pending completion callbacks (its length is `inflight_pulls_`), plus the
two ghost output logs. -/
structure Poller where
  heap : List PullState
  nodes : List (Nat × Nat)
  queue : List Nat
  inflight : List Nat
  sink : List Nat
  dispatches : List DispatchRec
  deriving Repr, DecidableEq

/-- Configuration: `gcs_max_concurrent_resource_pulls` and
`gcs_resource_report_poll_period_ms`. -/
structure Config where
  max : Nat
  period : Int
  deriving Repr, DecidableEq

/-- Initial poller state (constructor: empty registry and queue,
`inflight_pulls_ = 0`). -/
def initPoller : Poller :=
  { heap := [], nodes := [], queue := [], inflight := [], sink := [],
    dispatches := [] }

/-- Outcome of one transport call, as classified by the completion lambda
in `PullResourceReport`: `status.ok()`, the benign
`"Resources not changed"` failure, or any other failure. -/
inductive RStatus where
  | ok
  | notChanged
  | otherErr
  deriving Repr, DecidableEq

/-- The `need_full_report` flag the completion lambda computes from the
transport status. -/
def needFullReport : RStatus → Bool
  | .ok => false
  | .notChanged => false
  | .otherErr => true

/-- `GcsResourceReportPoller::PullResourceReport`: increments
`inflight_pulls_`, computes `initial_report = (next_pull_time == -1)` and
hands the request to the transport (recorded in the ghost dispatch log;
the completion is a later `Event.complete`). -/
def pullResourceReport (t : Int) (s : Poller) (ref : Nat) : Poller :=
  { s with
    inflight := ref :: s.inflight,
    dispatches :=
      s.dispatches ++ [⟨ref, (hget s.heap ref).next_pull_time == -1, t⟩] }

/-- The while-loop of `GcsResourceReportPoller::TryPullResourceReport`,
with explicit fuel.  Each iteration pops exactly one queue entry, so
running it with fuel = queue length is exactly the unbounded loop:
  while (inflight < max and queue nonempty):
    peek front; break if not yet due; pop;
    discard silently if the node id left the registry; else dispatch. -/
def tryPullLoop (mx : Nat) (t : Int) : Nat → Poller → Poller
  | 0, s => s
  | fuel + 1, s =>
    if s.inflight.length < mx then
      match s.queue with
      | [] => s
      | ref :: rest =>
        if t < (hget s.heap ref).next_pull_time then s
        else
          if (alookup s.nodes (hget s.heap ref).node_id).isSome then
            tryPullLoop mx t fuel (pullResourceReport t { s with queue := rest } ref)
          else
            tryPullLoop mx t fuel { s with queue := rest }
    else s

/-- `GcsResourceReportPoller::TryPullResourceReport` at current time `t`. -/
def tryPullResourceReport (mx : Nat) (t : Int) (s : Poller) : Poller :=
  tryPullLoop mx t s.queue.length s

/-- `GcsResourceReportPoller::NodeResourceReportReceived`: decrements
`inflight_pulls_` (one pending callback for `ref` is consumed), rewrites
the object's `next_pull_time` in place (`-1` on `need_full_report`, else
`now + poll_period`), and pushes the object to the back of the queue —
unconditionally, whether or not the node is still registered. -/
def nodeResourceReportReceived (cfg : Config) (t : Int) (s : Poller)
    (ref : Nat) (nfr : Bool) : Poller :=
  { s with
    inflight := merase s.inflight ref,
    heap := hset s.heap ref
      { hget s.heap ref with
        next_pull_time := if nfr then -1 else t + cfg.period },
    queue := s.queue ++ [ref] }

/-- External events driving the poller: membership callbacks, an
invocation of the dispatch scan (tick-driven, add-driven or
completion-driven — all three post the same `TryPullResourceReport`), and
the completion of one outstanding transport request. -/
inductive Event where
  | nodeAdded (node_id : Nat) (address : Nat)
  | nodeRemoved (node_id : Nat)
  | tryPull (t : Int)
  | complete (ref : Nat) (st : RStatus) (reply : Nat) (t : Int)
  deriving Repr, DecidableEq

/-- One event step.  `none` means the event cannot happen from this state:
for `nodeAdded` of a registered id this is the fatal
`RAY_CHECK(!nodes_.count(node_id))` (process termination); for `complete`
of a ref with no pending callback it is an unrealizable event.
`nodeAdded` allocates a fresh `PullState` with `next_pull_time = -1`,
registers it and pushes it to the front of the queue; `nodeRemoved` erases
the registry entry only; `complete` runs the transport lambda (forwarding
the payload to `handle_resource_report_` on `ok`) and then
`NodeResourceReportReceived`. -/
def step (cfg : Config) (s : Poller) : Event → Option Poller
  | .nodeAdded nid addr =>
    if (alookup s.nodes nid).isSome then none
    else some
      { s with
        heap := s.heap ++ [⟨nid, addr, -1⟩],
        nodes := (nid, s.heap.length) :: s.nodes,
        queue := s.heap.length :: s.queue }
  | .nodeRemoved nid => some { s with nodes := aerase s.nodes nid }
  | .tryPull t => some (tryPullResourceReport cfg.max t s)
  | .complete ref st reply t =>
    if ref ∈ s.inflight then
      some (nodeResourceReportReceived cfg t
        (if st = .ok then { s with sink := s.sink ++ [reply] } else s)
        ref (needFullReport st))
    else none

/-- Run a sequence of events from a given state; `none` as soon as a step
is fatal or unrealizable. -/
def runFrom (cfg : Config) : Poller → List Event → Option Poller
  | s, [] => some s
  | s, e :: evs =>
    match step cfg s e with
    | none => none
    | some s' => runFrom cfg s' evs

/-- Run a sequence of events from the initial (empty) poller. -/
def run (cfg : Config) (evs : List Event) : Option Poller :=
  runFrom cfg initPoller evs

end RayPoller

namespace RayPoller

/-! ### Lemmas about the heap, registry and multiset helpers -/

theorem hget_append_lt (h h₂ : List PullState) (r : Nat) (hr : r < h.length) :
    hget (h ++ h₂) r = hget h r := by
  induction h generalizing r with
  | nil => simp at hr
  | cons p ps ih =>
    cases r with
    | zero => rfl
    | succ n => exact ih n (Nat.lt_of_succ_lt_succ hr)

theorem hget_append_self (h : List PullState) (p : PullState) :
    hget (h ++ [p]) h.length = p := by
  induction h with
  | nil => rfl
  | cons q qs ih => exact ih

theorem length_hset (h : List PullState) (r : Nat) (p : PullState) :
    (hset h r p).length = h.length := by
  induction h generalizing r with
  | nil => rfl
  | cons q qs ih =>
    cases r with
    | zero => rfl
    | succ n => simp [hset, ih]

theorem hget_hset_self (h : List PullState) (r : Nat) (p : PullState)
    (hr : r < h.length) : hget (hset h r p) r = p := by
  induction h generalizing r with
  | nil => simp at hr
  | cons q qs ih =>
    cases r with
    | zero => rfl
    | succ n => exact ih n (Nat.lt_of_succ_lt_succ hr)

theorem hget_hset_ne (h : List PullState) (r r' : Nat) (p : PullState)
    (hne : r' ≠ r) : hget (hset h r p) r' = hget h r' := by
  induction h generalizing r r' with
  | nil => rfl
  | cons q qs ih =>
    cases r with
    | zero =>
      cases r' with
      | zero => exact absurd rfl hne
      | succ m => rfl
    | succ n =>
      cases r' with
      | zero => rfl
      | succ m => exact ih n m (fun hc => hne (by simp [hc]))

theorem alookup_aerase_self (l : List (Nat × Nat)) (n : Nat) :
    alookup (aerase l n) n = none := by
  induction l with
  | nil => rfl
  | cons p ps ih =>
    by_cases hk : p.1 = n
    · simpa [aerase, hk] using ih
    · simpa [aerase, alookup, hk] using ih

theorem alookup_aerase_ne (l : List (Nat × Nat)) (n n' : Nat) (hne : n' ≠ n) :
    alookup (aerase l n) n' = alookup l n' := by
  induction l with
  | nil => rfl
  | cons p ps ih =>
    by_cases hk : p.1 = n
    · have h2 : ¬ n = n' := fun hc => hne hc.symm
      simp [aerase, alookup, hk, h2, ih]
    · by_cases hk' : p.1 = n'
      · simp [aerase, alookup, hk, hk', hne]
      · simp [aerase, alookup, hk, hk', ih]

theorem aerase_of_none (l : List (Nat × Nat)) (n : Nat)
    (h : alookup l n = none) : aerase l n = l := by
  induction l with
  | nil => rfl
  | cons p ps ih =>
    by_cases hk : p.1 = n
    · simp [alookup, hk] at h
    · simp [alookup, hk] at h
      simp [aerase, hk, ih h]

theorem mcount_append (l l₂ : List Nat) (r : Nat) :
    mcount (l ++ l₂) r = mcount l r + mcount l₂ r := by
  induction l with
  | nil => simp [mcount]
  | cons x xs ih => simp [mcount, ih]; omega

theorem mcount_eq_zero_of_not_mem (l : List Nat) (r : Nat) (h : r ∉ l) :
    mcount l r = 0 := by
  induction l with
  | nil => rfl
  | cons x xs ih =>
    have hx : x ≠ r := fun hc => h (by simp [hc])
    have hxs : r ∉ xs := fun hc => h (List.mem_cons_of_mem _ hc)
    simp [mcount, hx, ih hxs]

theorem mem_of_mcount_pos (l : List Nat) (r : Nat) (h : mcount l r ≠ 0) :
    r ∈ l := by
  induction l with
  | nil => simp [mcount] at h
  | cons x xs ih =>
    by_cases hx : x = r
    · simp [hx]
    · simp [mcount, hx] at h
      exact List.mem_cons_of_mem _ (ih h)

theorem mcount_pos_of_mem (l : List Nat) (r : Nat) (h : r ∈ l) :
    mcount l r ≠ 0 := by
  induction l with
  | nil => simp at h
  | cons x xs ih =>
    by_cases hx : x = r
    · simp [mcount, hx]
    · have : r ∈ xs := by
        rcases List.mem_cons.mp h with h1 | h2
        · exact absurd h1.symm hx
        · exact h2
      simp [mcount, hx]
      exact ih this

theorem mcount_merase_self (l : List Nat) (r : Nat) (h : r ∈ l) :
    mcount (merase l r) r + 1 = mcount l r := by
  induction l with
  | nil => simp at h
  | cons x xs ih =>
    by_cases hx : x = r
    · simp [merase, mcount, hx]; omega
    · have hm : r ∈ xs := by
        rcases List.mem_cons.mp h with h1 | h2
        · exact absurd h1.symm hx
        · exact h2
      have h2 := ih hm
      simp [merase, mcount, hx]
      omega

theorem mcount_merase_ne (l : List Nat) (r r' : Nat) (hne : r' ≠ r) :
    mcount (merase l r) r' = mcount l r' := by
  induction l with
  | nil => rfl
  | cons x xs ih =>
    by_cases hx : x = r
    · have h2 : ¬ r = r' := fun hc => hne (hc ▸ rfl)
      simp [merase, mcount, hx, h2]
    · simp [merase, mcount, hx, ih]

theorem length_merase (l : List Nat) (r : Nat) (h : r ∈ l) :
    (merase l r).length + 1 = l.length := by
  induction l with
  | nil => simp at h
  | cons x xs ih =>
    by_cases hx : x = r
    · simp [merase, hx]
    · have hm : r ∈ xs := by
        rcases List.mem_cons.mp h with h1 | h2
        · exact absurd h1.symm hx
        · exact h2
      have h2 := ih hm
      simp [merase, hx]
      omega

theorem length_merase_le (l : List Nat) (r : Nat) :
    (merase l r).length ≤ l.length := by
  induction l with
  | nil => exact Nat.le_refl _
  | cons x xs ih =>
    by_cases hx : x = r
    · simp [merase, hx]
    · simp only [merase, hx, if_false, List.length_cons]
      exact Nat.succ_le_succ ih

theorem mem_merase (l : List Nat) (r x : Nat) (h : x ∈ merase l r) :
    x ∈ l := by
  induction l with
  | nil => simp [merase] at h
  | cons y ys ih =>
    by_cases hy : y = r
    · simp [merase, hy] at h
      exact List.mem_cons_of_mem _ h
    · simp [merase, hy] at h
      rcases h with h1 | h2
      · simp [h1]
      · exact List.mem_cons_of_mem _ (ih h2)

end RayPoller

namespace RayPoller

/-! ### Behaviour of one dispatch scan -/

/-- Guard facts recorded by one scan at time `t` from state `s`: every
dispatch it performs is for a currently registered node whose due time has
passed, with the full-report flag equal to the sentinel test. -/
def dispatchOk (s : Poller) (t : Int) (d : DispatchRec) : Prop :=
  d.time = t ∧
  d.full = ((hget s.heap d.ref).next_pull_time == -1) ∧
  ¬ t < (hget s.heap d.ref).next_pull_time ∧
  (alookup s.nodes (hget s.heap d.ref).node_id).isSome = true

theorem tryPullLoop_spec (mx : Nat) (t : Int) (fuel : Nat) (s : Poller) :
    ∃ ds : List DispatchRec,
      (tryPullLoop mx t fuel s).dispatches = s.dispatches ++ ds ∧
      (tryPullLoop mx t fuel s).heap = s.heap ∧
      (tryPullLoop mx t fuel s).nodes = s.nodes ∧
      (tryPullLoop mx t fuel s).sink = s.sink ∧
      (tryPullLoop mx t fuel s).inflight
        = (ds.map DispatchRec.ref).reverse ++ s.inflight ∧
      ∀ d ∈ ds, dispatchOk s t d := by
  induction fuel generalizing s with
  | zero =>
    refine ⟨[], ?_⟩
    simp [tryPullLoop]
  | succ n ih =>
    by_cases hb : s.inflight.length < mx
    · match hq : s.queue with
      | [] =>
        refine ⟨[], ?_⟩
        simp [tryPullLoop, hb, hq]
      | ref :: rest =>
        by_cases hdue : t < (hget s.heap ref).next_pull_time
        · refine ⟨[], ?_⟩
          simp [tryPullLoop, hb, hq, hdue]
        · by_cases hreg : (alookup s.nodes (hget s.heap ref).node_id).isSome
          · -- dispatch branch
            have hstep :
                tryPullLoop mx t (n + 1) s
                  = tryPullLoop mx t n
                      (pullResourceReport t { s with queue := rest } ref) := by
              simp [tryPullLoop, hb, hq, hdue, hreg]
            obtain ⟨ds, hds, hheap, hnodes, hsink, hinf, hok⟩ :=
              ih (pullResourceReport t { s with queue := rest } ref)
            refine ⟨⟨ref, (hget s.heap ref).next_pull_time == -1, t⟩ :: ds,
              ?_, ?_, ?_, ?_, ?_, ?_⟩
            · rw [hstep, hds]; simp [pullResourceReport]
            · rw [hstep, hheap]; rfl
            · rw [hstep, hnodes]; rfl
            · rw [hstep, hsink]; rfl
            · rw [hstep, hinf]; simp [pullResourceReport]
            · intro d hd
              rcases List.mem_cons.mp hd with h1 | h2
              · subst h1
                exact ⟨rfl, rfl, hdue, hreg⟩
              · have := hok d h2
                simpa [dispatchOk, pullResourceReport] using this
          · -- silent discard branch
            have hstep :
                tryPullLoop mx t (n + 1) s
                  = tryPullLoop mx t n { s with queue := rest } := by
              simp [tryPullLoop, hb, hq, hdue, hreg]
            obtain ⟨ds, hds, hheap, hnodes, hsink, hinf, hok⟩ :=
              ih { s with queue := rest }
            refine ⟨ds, ?_, ?_, ?_, ?_, ?_, ?_⟩
            · rw [hstep, hds]
            · rw [hstep, hheap]
            · rw [hstep, hnodes]
            · rw [hstep, hsink]
            · rw [hstep, hinf]
            · intro d hd
              have := hok d hd
              simpa [dispatchOk] using this
    · refine ⟨[], ?_⟩
      simp [tryPullLoop, hb]

end RayPoller

namespace RayPoller

/-! ### The reachable-state invariant -/

/-- Invariant maintained by every event step: the in-flight counter is
bounded by `max_concurrent_pulls_`; every ref held by the queue, the
pending callbacks or the registry is a valid heap address; the registry's
ref for a node id points at an object carrying that id; every `PullState`
object sits in at most one of queue / in-flight (and at most once); and
the object currently registered for a live node sits in exactly one. -/
structure Inv (cfg : Config) (s : Poller) : Prop where
  inflight_le : s.inflight.length ≤ cfg.max
  qvalid : ∀ r ∈ s.queue, r < s.heap.length
  ivalid : ∀ r ∈ s.inflight, r < s.heap.length
  nvalid : ∀ nid r, alookup s.nodes nid = some r → r < s.heap.length
  hid : ∀ nid r, alookup s.nodes nid = some r → (hget s.heap r).node_id = nid
  refAtMostOne : ∀ r, mcount s.queue r + mcount s.inflight r ≤ 1
  liveOne : ∀ nid r, alookup s.nodes nid = some r →
    mcount s.queue r + mcount s.inflight r = 1

theorem inv_init (cfg : Config) : Inv cfg initPoller := by
  constructor <;> simp [initPoller, mcount, alookup]

theorem inv_nodeAdded (cfg : Config) (s : Poller) (nid addr : Nat)
    (hinv : Inv cfg s) :
    Inv cfg
      { s with
        heap := s.heap ++ [⟨nid, addr, -1⟩],
        nodes := (nid, s.heap.length) :: s.nodes,
        queue := s.heap.length :: s.queue } := by
  have hLq : s.heap.length ∉ s.queue :=
    fun hc => Nat.lt_irrefl _ (hinv.qvalid _ hc)
  have hLi : s.heap.length ∉ s.inflight :=
    fun hc => Nat.lt_irrefl _ (hinv.ivalid _ hc)
  have hcq : mcount s.queue s.heap.length = 0 :=
    mcount_eq_zero_of_not_mem _ _ hLq
  have hci : mcount s.inflight s.heap.length = 0 :=
    mcount_eq_zero_of_not_mem _ _ hLi
  constructor
  · exact hinv.inflight_le
  · intro r hr
    rcases List.mem_cons.mp hr with h1 | h2
    · simp [h1]
    · have := hinv.qvalid r h2
      simp; omega
  · intro r hr
    have := hinv.ivalid r hr
    simp; omega
  · intro nid' r hr
    by_cases hn : nid = nid'
    · simp [alookup, hn] at hr
      simp [← hr]
    · simp [alookup, hn] at hr
      have := hinv.nvalid nid' r hr
      simp; omega
  · intro nid' r hr
    by_cases hn : nid = nid'
    · simp [alookup, hn] at hr
      rw [← hr, hget_append_self]
      exact hn
    · simp [alookup, hn] at hr
      have hlt := hinv.nvalid nid' r hr
      rw [hget_append_lt _ _ _ hlt]
      exact hinv.hid nid' r hr
  · intro r
    by_cases hR : s.heap.length = r
    · subst hR
      simp [mcount, hcq, hci]
    · have := hinv.refAtMostOne r
      simp [mcount, hR]; omega
  · intro nid' r hr
    by_cases hn : nid = nid'
    · simp [alookup, hn] at hr
      subst hr
      simp [mcount, hcq, hci]
    · simp [alookup, hn] at hr
      have hlt := hinv.nvalid nid' r hr
      have hR : ¬ s.heap.length = r := fun hc => by omega
      have := hinv.liveOne nid' r hr
      simp [mcount, hR]; omega

theorem inv_nodeRemoved (cfg : Config) (s : Poller) (nid : Nat)
    (hinv : Inv cfg s) :
    Inv cfg { s with nodes := aerase s.nodes nid } := by
  have key : ∀ nid' r, alookup (aerase s.nodes nid) nid' = some r →
      alookup s.nodes nid' = some r := by
    intro nid' r hr
    by_cases hn : nid' = nid
    · rw [hn, alookup_aerase_self] at hr
      exact absurd hr (by simp)
    · rwa [alookup_aerase_ne _ _ _ hn] at hr
  constructor
  · exact hinv.inflight_le
  · exact hinv.qvalid
  · exact hinv.ivalid
  · intro nid' r hr
    exact hinv.nvalid nid' r (key nid' r hr)
  · intro nid' r hr
    exact hinv.hid nid' r (key nid' r hr)
  · exact hinv.refAtMostOne
  · intro nid' r hr
    exact hinv.liveOne nid' r (key nid' r hr)

end RayPoller

namespace RayPoller

theorem inv_received (cfg : Config) (t : Int) (s : Poller) (ref : Nat)
    (nfr : Bool) (hinv : Inv cfg s) (href : ref ∈ s.inflight) :
    Inv cfg (nodeResourceReportReceived cfg t s ref nfr) := by
  have hrl : ref < s.heap.length := hinv.ivalid ref href
  have hcntI : mcount s.inflight ref ≠ 0 := mcount_pos_of_mem _ _ href
  have hcntQ : mcount s.queue ref = 0 := by
    have := hinv.refAtMostOne ref
    omega
  have hcntI1 : mcount s.inflight ref = 1 := by
    have := hinv.refAtMostOne ref
    omega
  have hmerase := mcount_merase_self s.inflight ref href
  constructor
  · simp only [nodeResourceReportReceived]
    calc (merase s.inflight ref).length ≤ s.inflight.length :=
          length_merase_le _ _
      _ ≤ cfg.max := hinv.inflight_le
  · intro r hr
    simp only [nodeResourceReportReceived] at hr ⊢
    rw [length_hset]
    rcases List.mem_append.mp hr with h1 | h2
    · exact hinv.qvalid r h1
    · simp at h2
      exact h2 ▸ hrl
  · intro r hr
    simp only [nodeResourceReportReceived] at hr ⊢
    rw [length_hset]
    exact hinv.ivalid r (mem_merase _ _ _ hr)
  · intro nid r hr
    simp only [nodeResourceReportReceived] at hr ⊢
    rw [length_hset]
    exact hinv.nvalid nid r hr
  · intro nid r hr
    simp only [nodeResourceReportReceived] at hr ⊢
    by_cases he : r = ref
    · rw [he, hget_hset_self _ _ _ hrl]
      show (hget s.heap ref).node_id = nid
      exact hinv.hid nid ref (he ▸ hr)
    · rw [hget_hset_ne _ _ _ _ he]
      exact hinv.hid nid r hr
  · intro r
    simp only [nodeResourceReportReceived]
    by_cases he : r = ref
    · rw [he, mcount_append]
      simp [mcount, hcntQ]
      omega
    · rw [mcount_append, mcount_merase_ne _ _ _ he]
      have hz : mcount [ref] r = 0 := by
        simp [mcount]
        exact fun hc => he hc.symm
      rw [hz]
      have := hinv.refAtMostOne r
      omega
  · intro nid r hr
    simp only [nodeResourceReportReceived] at hr ⊢
    by_cases he : r = ref
    · rw [he, mcount_append]
      simp [mcount, hcntQ]
      omega
    · rw [mcount_append, mcount_merase_ne _ _ _ he]
      have hz : mcount [ref] r = 0 := by
        simp [mcount]
        exact fun hc => he hc.symm
      rw [hz]
      have := hinv.liveOne nid r hr
      omega

theorem inv_sink (cfg : Config) (s : Poller) (reply : Nat)
    (hinv : Inv cfg s) : Inv cfg { s with sink := s.sink ++ [reply] } := by
  constructor
  · exact hinv.inflight_le
  · exact hinv.qvalid
  · exact hinv.ivalid
  · exact hinv.nvalid
  · exact hinv.hid
  · exact hinv.refAtMostOne
  · exact hinv.liveOne

theorem inv_discard (cfg : Config) (s : Poller) (ref : Nat)
    (rest : List Nat) (hinv : Inv cfg s) (hq : s.queue = ref :: rest)
    (hreg : (alookup s.nodes (hget s.heap ref).node_id).isSome = false) :
    Inv cfg { s with queue := rest } := by
  constructor
  · exact hinv.inflight_le
  · intro r hr
    exact hinv.qvalid r (hq ▸ List.mem_cons_of_mem _ hr)
  · exact hinv.ivalid
  · exact hinv.nvalid
  · exact hinv.hid
  · intro r
    have := hinv.refAtMostOne r
    rw [hq] at this
    simp [mcount] at this ⊢
    omega
  · intro nid r hr
    have hne : ¬ ref = r := by
      intro hc
      subst hc
      have := hinv.hid nid ref hr
      rw [this] at hreg
      rw [hr] at hreg
      simp at hreg
    have := hinv.liveOne nid r hr
    rw [hq] at this
    simp [mcount, hne] at this ⊢
    exact this

theorem inv_dispatch (cfg : Config) (t : Int) (s : Poller) (ref : Nat)
    (rest : List Nat) (hinv : Inv cfg s) (hq : s.queue = ref :: rest)
    (hb : s.inflight.length < cfg.max) :
    Inv cfg (pullResourceReport t { s with queue := rest } ref) := by
  have hrl : ref < s.heap.length := hinv.qvalid ref (hq ▸ List.mem_cons_self _ _)
  have hcnt := hinv.refAtMostOne ref
  rw [hq] at hcnt
  simp [mcount] at hcnt
  constructor
  · simpa [pullResourceReport] using hb
  · intro r hr
    simp [pullResourceReport] at hr
    exact hinv.qvalid r (hq ▸ List.mem_cons_of_mem _ hr)
  · intro r hr
    simp [pullResourceReport] at hr
    rcases hr with h1 | h2
    · exact h1 ▸ hrl
    · exact hinv.ivalid r h2
  · intro nid r hr
    simp [pullResourceReport] at hr
    exact hinv.nvalid nid r hr
  · intro nid r hr
    simp [pullResourceReport] at hr ⊢
    exact hinv.hid nid r hr
  · intro r
    simp only [pullResourceReport]
    by_cases he : ref = r
    · subst he
      simp [mcount]
      omega
    · have := hinv.refAtMostOne r
      rw [hq] at this
      simp [mcount, he] at this ⊢
      omega
  · intro nid r hr
    simp only [pullResourceReport] at hr ⊢
    by_cases he : ref = r
    · subst he
      simp [mcount]
      omega
    · have := hinv.liveOne nid r hr
      rw [hq] at this
      simp [mcount, he] at this ⊢
      omega

end RayPoller

namespace RayPoller

/-! ### The first dispatch of an object after its due time was (re)set -/

theorem drop_append_le {α : Type} (l es : List α) :
    ∀ n, n ≤ l.length → (l ++ es).drop n = l.drop n ++ es := by
  induction l with
  | nil =>
    intro n h
    simp at h
    subst h
    simp
  | cons x xs ih =>
    intro n h
    cases n with
    | zero => simp
    | succ m =>
      simp only [List.cons_append, List.drop_succ_cons]
      exact ih m (Nat.le_of_succ_le_succ h)

theorem head?_append_of_ne_nil {α : Type} (l l₂ : List α) (h : l ≠ []) :
    (l ++ l₂).head? = l.head? := by
  cases l with
  | nil => exact absurd rfl h
  | cons x xs => rfl

/-- New dispatch records for object `ref`, counting from position `n` of
the dispatch log. -/
def newDispOf (ref n : Nat) (s : Poller) : List DispatchRec :=
  (s.dispatches.drop n).filter (fun d => d.ref == ref)

/-- Persistence property: from a state where object `ref` is idle (no
pending callback) with due time `v`, until `ref` is dispatched again its
due time stays `v`; and once it is dispatched, the first such dispatch
carries `full = (v == -1)` and a scan time not earlier than `v`. -/
def FreshUntil (ref : Nat) (v : Int) (n : Nat) (s : Poller) : Prop :=
  n ≤ s.dispatches.length ∧ ref < s.heap.length ∧
  ((newDispOf ref n s = [] ∧ (hget s.heap ref).next_pull_time = v ∧
      mcount s.inflight ref = 0) ∨
    (∃ d, (newDispOf ref n s).head? = some d ∧
      d.full = (v == -1) ∧ ¬ d.time < v))

theorem fresh_step (cfg : Config) (ref : Nat) (v : Int) (n : Nat)
    (s s₁ : Poller) (e : Event) (hst : step cfg s e = some s₁)
    (hf : FreshUntil ref v n s) : FreshUntil ref v n s₁ := by
  obtain ⟨hn, hrl, hcase⟩ := hf
  cases e with
  | nodeAdded nid addr =>
    by_cases hl : (alookup s.nodes nid).isSome
    · simp [step, hl] at hst
    · simp [step, hl] at hst
      subst hst
      refine ⟨by simpa using hn, by simp; omega, ?_⟩
      rcases hcase with ⟨h1, h2, h3⟩ | ⟨d, hd⟩
      · refine Or.inl ⟨by simpa [newDispOf] using h1, ?_, by simpa using h3⟩
        show (hget (s.heap ++ [⟨nid, addr, -1⟩]) ref).next_pull_time = v
        rw [hget_append_lt _ _ _ hrl]
        exact h2
      · exact Or.inr ⟨d, by simpa [newDispOf] using hd⟩
  | nodeRemoved nid =>
    simp [step] at hst
    subst hst
    exact ⟨hn, hrl, by
      rcases hcase with ⟨h1, h2, h3⟩ | ⟨d, hd⟩
      · exact Or.inl ⟨by simpa [newDispOf] using h1, h2, h3⟩
      · exact Or.inr ⟨d, by simpa [newDispOf] using hd⟩⟩
  | complete r' st reply t =>
    by_cases hr' : r' ∈ s.inflight
    · have hs₁ : s₁ = nodeResourceReportReceived cfg t
          (if st = RStatus.ok then { s with sink := s.sink ++ [reply] } else s)
          r' (needFullReport st) := by
        simp [step, hr'] at hst
        exact hst.symm
      have hdisp : s₁.dispatches = s.dispatches := by
        rw [hs₁]
        by_cases hok : st = RStatus.ok <;>
          simp [nodeResourceReportReceived, hok]
      have hheapLen : s₁.heap.length = s.heap.length := by
        rw [hs₁]
        by_cases hok : st = RStatus.ok <;>
          simp [nodeResourceReportReceived, hok, length_hset]
      refine ⟨by rw [hdisp]; exact hn, by rw [hheapLen]; exact hrl, ?_⟩
      rcases hcase with ⟨h1, h2, h3⟩ | ⟨d, hd⟩
      · have hne : ¬ ref = r' := by
          intro hc
          exact mcount_pos_of_mem _ _ (hc ▸ hr') h3
        refine Or.inl ⟨?_, ?_, ?_⟩
        · simpa [newDispOf, hdisp] using h1
        · rw [hs₁]
          by_cases hok : st = RStatus.ok <;>
            simpa [nodeResourceReportReceived, hok,
              hget_hset_ne _ _ _ _ hne] using h2
        · rw [hs₁]
          by_cases hok : st = RStatus.ok <;>
            simpa [nodeResourceReportReceived, hok,
              mcount_merase_ne _ _ _ hne] using h3
      · exact Or.inr ⟨d, by simpa [newDispOf, hdisp] using hd⟩
    · simp [step, hr'] at hst
  | tryPull t =>
    simp only [step, Option.some.injEq] at hst
    obtain ⟨ds, hds, hheap, hnodes, hsink, hinf, hok⟩ :=
      tryPullLoop_spec cfg.max t s.queue.length s
    rw [← tryPullResourceReport] at hds hheap hnodes hsink hinf
    rw [hst] at hds hheap hnodes hsink hinf
    refine ⟨by rw [hds]; simp; omega, by rw [hheap]; exact hrl, ?_⟩
    have hdrop : s₁.dispatches.drop n = s.dispatches.drop n ++ ds := by
      rw [hds]
      exact drop_append_le _ _ n hn
    rcases hcase with ⟨h1, h2, h3⟩ | ⟨d, hd⟩
    · by_cases hnew : ds.filter (fun d => d.ref == ref) = []
      · refine Or.inl ⟨?_, by rw [hheap]; exact h2, ?_⟩
        · simp only [newDispOf, hdrop, List.filter_append]
          simp only [newDispOf] at h1
          rw [h1, hnew]
          rfl
        · rw [hinf]
          rw [mcount_append]
          have hnm : ref ∉ (ds.map DispatchRec.ref).reverse := by
            intro hc
            rw [List.mem_reverse] at hc
            obtain ⟨d, hdm, hdr⟩ := List.mem_map.mp hc
            have hmem : d ∈ ds.filter (fun d => d.ref == ref) := by
              apply List.mem_filter.mpr
              exact ⟨hdm, by simp [hdr]⟩
            rw [hnew] at hmem
            simp at hmem
          rw [mcount_eq_zero_of_not_mem _ _ hnm]
          omega
      · match hms : ds.filter (fun d => d.ref == ref) with
        | [] => exact absurd hms hnew
        | d :: dtl =>
          have hdm : d ∈ ds := (List.mem_filter.mp (hms ▸ List.mem_cons_self d dtl)).1
          have hdref : d.ref = ref := by
            have := (List.mem_filter.mp (hms ▸ List.mem_cons_self d dtl)).2
            simpa using this
          obtain ⟨htime, hfull, hdue, _⟩ := hok d hdm
          refine Or.inr ⟨d, ?_, ?_, ?_⟩
          · simp only [newDispOf, hdrop, List.filter_append]
            simp only [newDispOf] at h1
            rw [h1, hms]
            rfl
          · rw [hfull, hdref, h2]
          · rw [hdref] at hdue
            rw [h2] at hdue
            rw [htime]
            exact hdue
    · refine Or.inr ⟨d, ?_, hd.2.1, hd.2.2⟩
      simp only [newDispOf, hdrop, List.filter_append]
      simp only [newDispOf] at hd
      have hne : (s.dispatches.drop n).filter (fun d => d.ref == ref) ≠ [] := by
        intro hc
        rw [hc] at hd
        simp at hd
      rw [head?_append_of_ne_nil _ _ hne]
      exact hd.1

theorem fresh_runFrom (cfg : Config) (ref : Nat) (v : Int) (n : Nat)
    (evs : List Event) (s s₂ : Poller)
    (hrun : runFrom cfg s evs = some s₂) (hf : FreshUntil ref v n s) :
    FreshUntil ref v n s₂ := by
  induction evs generalizing s with
  | nil =>
    simp [runFrom] at hrun
    exact hrun ▸ hf
  | cons e evs ih =>
    simp only [runFrom] at hrun
    match hst : step cfg s e with
    | none =>
      rw [hst] at hrun
      exact absurd hrun (by simp)
    | some s₁ =>
      rw [hst] at hrun
      exact ih s₁ hrun (fresh_step cfg ref v n s s₁ e hst hf)

theorem firstDispatch_after (cfg : Config) (evs : List Event)
    (s₀ s₂ : Poller) (ref : Nat) (v : Int)
    (hrl : ref < s₀.heap.length) (hni : mcount s₀.inflight ref = 0)
    (hv : (hget s₀.heap ref).next_pull_time = v)
    (hrun : runFrom cfg s₀ evs = some s₂) :
    ∀ d, (newDispOf ref s₀.dispatches.length s₂).head? = some d →
      d.full = (v == -1) ∧ ¬ d.time < v := by
  intro d hd
  have hf₀ : FreshUntil ref v s₀.dispatches.length s₀ := by
    refine ⟨Nat.le_refl _, hrl, Or.inl ⟨?_, hv, hni⟩⟩
    simp [newDispOf]
  obtain ⟨_, _, hcase⟩ := fresh_runFrom cfg ref v _ evs s₀ s₂ hrun hf₀
  rcases hcase with ⟨h1, _, _⟩ | ⟨d', hd', hfull, htime⟩
  · rw [h1] at hd
    simp at hd
  · rw [hd'] at hd
    cases hd
    exact ⟨hfull, htime⟩

end RayPoller

namespace RayPoller

theorem inv_tryPullLoop (cfg : Config) (t : Int) (fuel : Nat) (s : Poller)
    (hinv : Inv cfg s) : Inv cfg (tryPullLoop cfg.max t fuel s) := by
  induction fuel generalizing s with
  | zero => simpa [tryPullLoop] using hinv
  | succ n ih =>
    by_cases hb : s.inflight.length < cfg.max
    · match hq : s.queue with
      | [] =>
        simpa [tryPullLoop, hb, hq] using hinv
      | ref :: rest =>
        by_cases hdue : t < (hget s.heap ref).next_pull_time
        · simpa [tryPullLoop, hb, hq, hdue] using hinv
        · by_cases hreg : (alookup s.nodes (hget s.heap ref).node_id).isSome
          · have hstep :
                tryPullLoop cfg.max t (n + 1) s
                  = tryPullLoop cfg.max t n
                      (pullResourceReport t { s with queue := rest } ref) := by
              simp [tryPullLoop, hb, hq, hdue, hreg]
            rw [hstep]
            exact ih _ (inv_dispatch cfg t s ref rest hinv hq hb)
          · have hstep :
                tryPullLoop cfg.max t (n + 1) s
                  = tryPullLoop cfg.max t n { s with queue := rest } := by
              simp [tryPullLoop, hb, hq, hdue, hreg]
            rw [hstep]
            have hreg2 : (alookup s.nodes (hget s.heap ref).node_id).isSome
                = false := by
              simpa using hreg
            exact ih _ (inv_discard cfg s ref rest hinv hq hreg2)
    · simpa [tryPullLoop, hb] using hinv

theorem inv_step (cfg : Config) (s s' : Poller) (e : Event)
    (hinv : Inv cfg s) (hst : step cfg s e = some s') : Inv cfg s' := by
  cases e with
  | nodeAdded nid addr =>
    by_cases hl : (alookup s.nodes nid).isSome
    · simp [step, hl] at hst
    · simp [step, hl] at hst
      exact hst ▸ inv_nodeAdded cfg s nid addr hinv
  | nodeRemoved nid =>
    simp [step] at hst
    exact hst ▸ inv_nodeRemoved cfg s nid hinv
  | tryPull t =>
    simp [step, tryPullResourceReport] at hst
    exact hst ▸ inv_tryPullLoop cfg t s.queue.length s hinv
  | complete ref st reply t =>
    by_cases href : ref ∈ s.inflight
    · by_cases hok : st = RStatus.ok
      · subst hok
        simp [step, href] at hst
        refine hst ▸ inv_received cfg t _ ref _ ?_ ?_
        · exact inv_sink cfg s reply hinv
        · exact href
      · simp [step, href, hok] at hst
        exact hst ▸ inv_received cfg t s ref _ hinv href
    · simp [step, href] at hst

theorem inv_runFrom (cfg : Config) (evs : List Event) (s s' : Poller)
    (hinv : Inv cfg s) (hrun : runFrom cfg s evs = some s') : Inv cfg s' := by
  induction evs generalizing s with
  | nil =>
    simp [runFrom] at hrun
    exact hrun ▸ hinv
  | cons e evs ih =>
    simp only [runFrom] at hrun
    match hst : step cfg s e with
    | none =>
      rw [hst] at hrun
      exact absurd hrun (by simp)
    | some s₁ =>
      rw [hst] at hrun
      exact ih s₁ (inv_step cfg s s₁ e hinv hst) hrun

theorem inv_run (cfg : Config) (evs : List Event) (s : Poller)
    (hrun : run cfg evs = some s) : Inv cfg s :=
  inv_runFrom cfg evs initPoller s (inv_init cfg) hrun

end RayPoller

namespace RayPoller

/-! ### Claim theorems -/

/-- C1: for every sequence of NodeAdded/NodeRemoved events interleaved
with tick-driven, add-driven and completion-driven invocations of the
dispatch algorithm, the in-flight pull counter never exceeds
`maxConcurrentPulls`. -/
theorem C1_inflight_bounded (cfg : Config) (evs : List Event) (s : Poller)
    (hrun : run cfg evs = some s) : s.inflight.length ≤ cfg.max :=
  (inv_run cfg evs s hrun).inflight_le

theorem C1_witness :
    ((run ⟨2, 100⟩ [Event.nodeAdded 0 5, Event.tryPull 0]).getD
      initPoller).inflight.length ≤ 2 :=
  C1_inflight_bounded ⟨2, 100⟩ [Event.nodeAdded 0 5, Event.tryPull 0]
    ((run ⟨2, 100⟩ [Event.nodeAdded 0 5, Event.tryPull 0]).getD initPoller)
    (by rfl)

/-- C2 counterexample: the claim "a pull for that node is never dispatched
while a previous pull for the same node is still outstanding" is false as
stated.  Remove node 0 while its pull is in flight, re-add it, and run the
scan: the registry check in `TryPullResourceReport` tests only key
presence, so the new `PullState` is dispatched while the old pull is still
outstanding.  Final state: node 0 is live (registry `[(0, 1)]`), yet the
two pending pulls (objects 1 and 0) both carry node id 0, and both
dispatches (refs 0 then 1) happened — node 0 was dispatched a second time
with its first pull outstanding, and a live node is in the in-flight
state twice, violating "never both / exactly one". -/
theorem C2_counterexample :
    (run ⟨2, 100⟩ [Event.nodeAdded 0 5, Event.tryPull 0,
        Event.nodeRemoved 0, Event.nodeAdded 0 6, Event.tryPull 0]).map
      (fun s => (s.nodes, s.inflight.map (fun r => (hget s.heap r).node_id),
        s.dispatches.map DispatchRec.ref))
    = some ([(0, 1)], [0, 0], [0, 1]) := by rfl

/-- C2 (amended): the per-node exclusion holds per `PullState` object, not
per node identifier.  In every reachable state, every `PullState` object
is in at most one of queued / in-flight (and at most once), and the object
currently registered for each live node is in exactly one of the two.
Across a remove/re-add of the same node identifier the two incarnations
are distinct objects and may be in flight simultaneously (see the
counterexample). -/
theorem C2_per_object_sequential (cfg : Config) (evs : List Event)
    (s : Poller) (hrun : run cfg evs = some s) :
    (∀ r, mcount s.queue r + mcount s.inflight r ≤ 1) ∧
    (∀ nid r, alookup s.nodes nid = some r →
      mcount s.queue r + mcount s.inflight r = 1) :=
  ⟨(inv_run cfg evs s hrun).refAtMostOne, (inv_run cfg evs s hrun).liveOne⟩

theorem C2_witness :
    mcount ((run ⟨2, 100⟩ [Event.nodeAdded 0 5, Event.tryPull 0]).getD
        initPoller).queue 0 +
      mcount ((run ⟨2, 100⟩ [Event.nodeAdded 0 5, Event.tryPull 0]).getD
        initPoller).inflight 0 = 1 :=
  (C2_per_object_sequential ⟨2, 100⟩ [Event.nodeAdded 0 5, Event.tryPull 0]
    ((run ⟨2, 100⟩ [Event.nodeAdded 0 5, Event.tryPull 0]).getD initPoller)
    (by rfl)).2 0 0 (by rfl)

/-- C3 counterexample: the claim "the completion handler ... does not
re-enqueue the removed node's state onto the due queue" is false as
stated.  Add node 0, dispatch its pull, remove the node, then let the
pull complete: `NodeResourceReportReceived` pushes the state back
unconditionally, so the final state has an empty registry but the removed
node's object (ref 0) sitting on the due queue. -/
theorem C3_counterexample :
    (run ⟨2, 100⟩ [Event.nodeAdded 0 5, Event.tryPull 0,
        Event.nodeRemoved 0, Event.complete 0 RStatus.ok 7 0]).map
      (fun s => (s.nodes, s.queue, s.inflight.length))
    = some ([], [0], 0) := by rfl

/-- C3 (amended): if a node is removed while its pull is in flight, the
completion handler still runs to normal conclusion — it decrements the
in-flight counter by one and leaves the registry untouched — but it does
re-enqueue the removed node's state at the back of the due queue; the
stale entry is only discarded (without being dispatched) when a later
scan dequeues it, per the lazy-deletion rule. -/
theorem C3_completion_after_removal (cfg : Config) (s : Poller) (ref : Nat)
    (st : RStatus) (reply : Nat) (t : Int) (href : ref ∈ s.inflight)
    (_hgone : alookup s.nodes (hget s.heap ref).node_id = none) :
    ∃ s', step cfg s (.complete ref st reply t) = some s' ∧
      s'.inflight.length + 1 = s.inflight.length ∧
      s'.queue = s.queue ++ [ref] ∧ s'.nodes = s.nodes := by
  refine ⟨nodeResourceReportReceived cfg t
    (if st = RStatus.ok then { s with sink := s.sink ++ [reply] } else s)
    ref (needFullReport st), ?_, ?_, ?_, ?_⟩
  · simp [step, href]
  · by_cases hok : st = RStatus.ok <;>
      simp [nodeResourceReportReceived, hok, length_merase _ _ href]
  · by_cases hok : st = RStatus.ok <;> simp [nodeResourceReportReceived, hok]
  · by_cases hok : st = RStatus.ok <;> simp [nodeResourceReportReceived, hok]

theorem C3_witness :
    ∃ s', step ⟨2, 100⟩
        ((run ⟨2, 100⟩ [Event.nodeAdded 0 5, Event.tryPull 0,
          Event.nodeRemoved 0]).getD initPoller)
        (Event.complete 0 RStatus.ok 7 0) = some s' ∧
      s'.inflight.length + 1 =
        ((run ⟨2, 100⟩ [Event.nodeAdded 0 5, Event.tryPull 0,
          Event.nodeRemoved 0]).getD initPoller).inflight.length ∧
      s'.queue = ((run ⟨2, 100⟩ [Event.nodeAdded 0 5, Event.tryPull 0,
          Event.nodeRemoved 0]).getD initPoller).queue ++ [0] ∧
      s'.nodes = ((run ⟨2, 100⟩ [Event.nodeAdded 0 5, Event.tryPull 0,
          Event.nodeRemoved 0]).getD initPoller).nodes :=
  C3_completion_after_removal ⟨2, 100⟩
    ((run ⟨2, 100⟩ [Event.nodeAdded 0 5, Event.tryPull 0,
      Event.nodeRemoved 0]).getD initPoller)
    0 RStatus.ok 7 0 (by decide) (by rfl)

end RayPoller

namespace RayPoller

/-- C4: after a pull of node `n` completes with a failure other than the
"no change since last report" classification, the handler performs no
immediate retry (the dispatch log is unchanged), sets the object's next
eligibility to the unset sentinel `-1`, and the next dispatch of that
object — whenever it happens — requests a full report regardless of
elapsed time. -/
theorem C4_error_forces_full (cfg : Config) (evs evs₂ : List Event)
    (s s' s₂ : Poller) (ref reply : Nat) (t : Int)
    (hrun : run cfg evs = some s) (href : ref ∈ s.inflight)
    (hst : step cfg s (.complete ref .otherErr reply t) = some s')
    (hrun₂ : runFrom cfg s' evs₂ = some s₂) :
    (hget s'.heap ref).next_pull_time = -1 ∧
    s'.dispatches = s.dispatches ∧
    ∀ d, (newDispOf ref s'.dispatches.length s₂).head? = some d →
      d.full = true := by
  have hinv := inv_run cfg evs s hrun
  have hrl : ref < s.heap.length := hinv.ivalid ref href
  have hs' : s' = nodeResourceReportReceived cfg t s ref true := by
    simp [step, href, needFullReport] at hst
    exact hst.symm
  have hnext : (hget s'.heap ref).next_pull_time = -1 := by
    rw [hs']
    simp [nodeResourceReportReceived, hget_hset_self _ _ _ hrl]
  refine ⟨hnext, ?_, ?_⟩
  · rw [hs']
    simp [nodeResourceReportReceived]
  · intro d hd
    have hrl2 : ref < s'.heap.length := by
      rw [hs']
      simpa [nodeResourceReportReceived, length_hset] using hrl
    have hni : mcount s'.inflight ref = 0 := by
      have h1 : mcount s.inflight ref = 1 := by
        have h2 := hinv.refAtMostOne ref
        have h3 := mcount_pos_of_mem _ _ href
        omega
      rw [hs']
      simp only [nodeResourceReportReceived]
      have := mcount_merase_self s.inflight ref href
      omega
    have hfd := firstDispatch_after cfg evs₂ s' s₂ ref (-1)
      hrl2 hni hnext hrun₂ d hd
    simpa using hfd.1

theorem C4_witness :
    (hget ((step ⟨2, 100⟩
        ((run ⟨2, 100⟩ [Event.nodeAdded 0 5, Event.tryPull 0]).getD initPoller)
        (Event.complete 0 RStatus.otherErr 9 50)).getD initPoller).heap
      0).next_pull_time = -1 :=
  (C4_error_forces_full ⟨2, 100⟩ [Event.nodeAdded 0 5, Event.tryPull 0]
    [Event.tryPull 60]
    ((run ⟨2, 100⟩ [Event.nodeAdded 0 5, Event.tryPull 0]).getD initPoller)
    ((step ⟨2, 100⟩
        ((run ⟨2, 100⟩ [Event.nodeAdded 0 5, Event.tryPull 0]).getD initPoller)
        (Event.complete 0 RStatus.otherErr 9 50)).getD initPoller)
    ((runFrom ⟨2, 100⟩
        ((step ⟨2, 100⟩
          ((run ⟨2, 100⟩ [Event.nodeAdded 0 5, Event.tryPull 0]).getD initPoller)
          (Event.complete 0 RStatus.otherErr 9 50)).getD initPoller)
        [Event.tryPull 60]).getD initPoller)
    0 9 50 (by rfl) (by decide) (by rfl) (by rfl)).1

/-- C5: after a pull of node `n` completes successfully (status ok), the
received report is forwarded to the report sink exactly once, the
object's next eligibility is completion time plus `pollPeriodMs`, and the
next dispatch of that object — whenever it happens — is not earlier than
that eligibility time and requests an incremental report
(`full = false`). -/
theorem C5_success_pull (cfg : Config) (evs evs₂ : List Event)
    (s s' s₂ : Poller) (ref reply : Nat) (t : Int)
    (hrun : run cfg evs = some s) (href : ref ∈ s.inflight)
    (ht : 0 ≤ t) (hp : 0 ≤ cfg.period)
    (hst : step cfg s (.complete ref .ok reply t) = some s')
    (hrun₂ : runFrom cfg s' evs₂ = some s₂) :
    s'.sink = s.sink ++ [reply] ∧
    (hget s'.heap ref).next_pull_time = t + cfg.period ∧
    ∀ d, (newDispOf ref s'.dispatches.length s₂).head? = some d →
      d.full = false ∧ t + cfg.period ≤ d.time := by
  have hinv := inv_run cfg evs s hrun
  have hrl : ref < s.heap.length := hinv.ivalid ref href
  have hs' : s' = nodeResourceReportReceived cfg t
      { s with sink := s.sink ++ [reply] } ref false := by
    simp [step, href, needFullReport] at hst
    exact hst.symm
  have hnext : (hget s'.heap ref).next_pull_time = t + cfg.period := by
    rw [hs']
    simp [nodeResourceReportReceived, hget_hset_self _ _ _ hrl]
  refine ⟨?_, hnext, ?_⟩
  · rw [hs']
    simp [nodeResourceReportReceived]
  · intro d hd
    have hrl2 : ref < s'.heap.length := by
      rw [hs']
      simpa [nodeResourceReportReceived, length_hset] using hrl
    have hni : mcount s'.inflight ref = 0 := by
      have h1 : mcount s.inflight ref = 1 := by
        have h2 := hinv.refAtMostOne ref
        have h3 := mcount_pos_of_mem _ _ href
        omega
      rw [hs']
      simp only [nodeResourceReportReceived]
      have := mcount_merase_self s.inflight ref href
      omega
    have hfd := firstDispatch_after cfg evs₂ s' s₂ ref (t + cfg.period)
      hrl2 hni hnext hrun₂ d hd
    refine ⟨?_, ?_⟩
    · have hne : t + cfg.period ≠ -1 := by omega
      rw [hfd.1]
      simp [hne]
    · exact Int.not_lt.mp hfd.2

theorem C5_witness :
    ((step ⟨2, 100⟩
        ((run ⟨2, 100⟩ [Event.nodeAdded 0 5, Event.tryPull 0]).getD initPoller)
        (Event.complete 0 RStatus.ok 9 50)).getD initPoller).sink =
      ((run ⟨2, 100⟩ [Event.nodeAdded 0 5, Event.tryPull 0]).getD
        initPoller).sink ++ [9] :=
  (C5_success_pull ⟨2, 100⟩ [Event.nodeAdded 0 5, Event.tryPull 0]
    [Event.tryPull 150]
    ((run ⟨2, 100⟩ [Event.nodeAdded 0 5, Event.tryPull 0]).getD initPoller)
    ((step ⟨2, 100⟩
        ((run ⟨2, 100⟩ [Event.nodeAdded 0 5, Event.tryPull 0]).getD initPoller)
        (Event.complete 0 RStatus.ok 9 50)).getD initPoller)
    ((runFrom ⟨2, 100⟩
        ((step ⟨2, 100⟩
          ((run ⟨2, 100⟩ [Event.nodeAdded 0 5, Event.tryPull 0]).getD initPoller)
          (Event.complete 0 RStatus.ok 9 50)).getD initPoller)
        [Event.tryPull 150]).getD initPoller)
    0 9 50 (by rfl) (by decide) (by decide) (by decide) (by rfl) (by rfl)).1

end RayPoller

namespace RayPoller

/-- C6: for every dispatched pull, the full-report flag handed to the
transport is true exactly when the object's `next_pull_time` is the unset
sentinel `-1` at scan time; and after `NodeAdded` (which allocates the
state with `next_pull_time = -1`), the first dispatch of the new object
requests a full report. -/
theorem C6_full_report_iff_unset (cfg : Config) (evs : List Event)
    (s : Poller) (hrun : run cfg evs = some s) :
    (∀ t s₁, step cfg s (.tryPull t) = some s₁ →
      ∀ d ∈ s₁.dispatches.drop s.dispatches.length,
        (d.full = true ↔ (hget s.heap d.ref).next_pull_time = -1)) ∧
    (∀ nid addr s₁ evs₂ s₂, step cfg s (.nodeAdded nid addr) = some s₁ →
      runFrom cfg s₁ evs₂ = some s₂ →
      ∀ d, (newDispOf s.heap.length s₁.dispatches.length s₂).head? = some d →
        d.full = true) := by
  have hinv := inv_run cfg evs s hrun
  constructor
  · intro t s₁ hst d hd
    simp only [step, Option.some.injEq] at hst
    obtain ⟨ds, hds, _, _, _, _, hok⟩ :=
      tryPullLoop_spec cfg.max t s.queue.length s
    rw [← tryPullResourceReport, hst] at hds
    rw [hds, drop_append_le _ _ _ (Nat.le_refl _), List.drop_length,
      List.nil_append] at hd
    have := (hok d hd).2.1
    rw [this]
    simp
  · intro nid addr s₁ evs₂ s₂ hadd hrun₂ d hd
    by_cases hl : (alookup s.nodes nid).isSome
    · simp [step, hl] at hadd
    · simp only [step, hl, Bool.false_eq_true, if_false,
        Option.some.injEq] at hadd
      have hrl2 : s.heap.length < s₁.heap.length := by
        rw [← hadd]
        simp
      have hni : mcount s₁.inflight s.heap.length = 0 := by
        rw [← hadd]
        refine mcount_eq_zero_of_not_mem _ _ ?_
        intro hc
        have := hinv.ivalid _ hc
        omega
      have hv : (hget s₁.heap s.heap.length).next_pull_time = -1 := by
        rw [← hadd]
        show (hget (s.heap ++ [⟨nid, addr, -1⟩]) s.heap.length).next_pull_time
          = -1
        rw [hget_append_self]
      have hfd := firstDispatch_after cfg evs₂ s₁ s₂ s.heap.length (-1)
        hrl2 hni hv hrun₂ d hd
      simpa using hfd.1

theorem C6_witness :
    ((⟨0, true, 0⟩ : DispatchRec).full = true ↔
      (hget ((run ⟨2, 100⟩ [Event.nodeAdded 0 5]).getD initPoller).heap
        (⟨0, true, 0⟩ : DispatchRec).ref).next_pull_time = -1) :=
  (C6_full_report_iff_unset ⟨2, 100⟩ [Event.nodeAdded 0 5]
    ((run ⟨2, 100⟩ [Event.nodeAdded 0 5]).getD initPoller) (by rfl)).1
    0
    ((step ⟨2, 100⟩ ((run ⟨2, 100⟩ [Event.nodeAdded 0 5]).getD initPoller)
      (Event.tryPull 0)).getD initPoller)
    (by rfl) ⟨0, true, 0⟩ (by decide)

/-- C7: a pull that completes with the "no change since last report"
classification forwards nothing to the report sink, keeps the
need-full-report flag false, and schedules the object's next eligibility
at completion time plus `pollPeriodMs`. -/
theorem C7_unchanged_benign (cfg : Config) (evs : List Event) (s s' : Poller)
    (ref reply : Nat) (t : Int)
    (hrun : run cfg evs = some s) (href : ref ∈ s.inflight)
    (hst : step cfg s (.complete ref .notChanged reply t) = some s') :
    needFullReport RStatus.notChanged = false ∧
    s'.sink = s.sink ∧
    (hget s'.heap ref).next_pull_time = t + cfg.period := by
  have hinv := inv_run cfg evs s hrun
  have hrl : ref < s.heap.length := hinv.ivalid ref href
  have hs' : s' = nodeResourceReportReceived cfg t s ref false := by
    simp [step, href, needFullReport] at hst
    exact hst.symm
  refine ⟨rfl, ?_, ?_⟩
  · rw [hs']
    simp [nodeResourceReportReceived]
  · rw [hs']
    simp [nodeResourceReportReceived, hget_hset_self _ _ _ hrl]

theorem C7_witness :
    (hget ((step ⟨2, 100⟩
        ((run ⟨2, 100⟩ [Event.nodeAdded 0 5, Event.tryPull 0]).getD initPoller)
        (Event.complete 0 RStatus.notChanged 9 50)).getD initPoller).heap
      0).next_pull_time = 50 + (100 : Int) :=
  (C7_unchanged_benign ⟨2, 100⟩ [Event.nodeAdded 0 5, Event.tryPull 0]
    ((run ⟨2, 100⟩ [Event.nodeAdded 0 5, Event.tryPull 0]).getD initPoller)
    ((step ⟨2, 100⟩
        ((run ⟨2, 100⟩ [Event.nodeAdded 0 5, Event.tryPull 0]).getD initPoller)
        (Event.complete 0 RStatus.notChanged 9 50)).getD initPoller)
    0 9 50 (by rfl) (by decide) (by rfl)).2.2

/-- C8: when the scan dequeues an entry whose node has been removed from
the registry while it was queued, the entry is discarded silently: the
whole scan behaves exactly as if the entry had not been in the queue —
no in-flight budget is consumed for it, the transport is not invoked for
it, and the scan continues with the remaining entries. -/
theorem C8_stale_entry_discarded (cfg : Config) (s : Poller) (ref : Nat)
    (rest : List Nat) (t : Int) (hq : s.queue = ref :: rest)
    (hb : s.inflight.length < cfg.max)
    (hdue : ¬ t < (hget s.heap ref).next_pull_time)
    (hgone : alookup s.nodes (hget s.heap ref).node_id = none) :
    step cfg s (.tryPull t) = step cfg { s with queue := rest } (.tryPull t) := by
  simp only [step, Option.some.injEq, tryPullResourceReport]
  rw [hq]
  simp [tryPullLoop, hb, hdue, hgone, hq]

theorem C8_witness :
    step ⟨2, 100⟩
      ((run ⟨2, 100⟩ [Event.nodeAdded 0 5, Event.nodeRemoved 0]).getD
        initPoller) (Event.tryPull 0)
    = step ⟨2, 100⟩
      { (run ⟨2, 100⟩ [Event.nodeAdded 0 5, Event.nodeRemoved 0]).getD
          initPoller with queue := [] } (Event.tryPull 0) :=
  C8_stale_entry_discarded ⟨2, 100⟩
    ((run ⟨2, 100⟩ [Event.nodeAdded 0 5, Event.nodeRemoved 0]).getD initPoller)
    0 [] 0 (by rfl) (by decide) (by decide) (by rfl)

/-- C9: `NodeAdded` fails fatally (the `RAY_CHECK`, modelled as the `none`
outcome that no other membership or scan event produces) exactly when the
node identifier is already registered; otherwise it allocates a fresh
`PullState` with `next_pull_time` unset (`-1`), registers it, and pushes
it to the front of the due queue. -/
theorem C9_duplicate_add_fatal (cfg : Config) (s : Poller) (nid addr : Nat) :
    (step cfg s (.nodeAdded nid addr) = none ↔
      (alookup s.nodes nid).isSome = true) ∧
    ((alookup s.nodes nid).isSome = false →
      step cfg s (.nodeAdded nid addr) = some
        { s with
          heap := s.heap ++ [⟨nid, addr, -1⟩],
          nodes := (nid, s.heap.length) :: s.nodes,
          queue := s.heap.length :: s.queue }) := by
  constructor
  · by_cases hl : (alookup s.nodes nid).isSome <;> simp [step, hl]
  · intro hl
    simp [step, hl]

theorem C9_witness :
    step ⟨2, 100⟩ initPoller (Event.nodeAdded 0 5) = some
      { initPoller with
        heap := initPoller.heap ++ [⟨0, 5, -1⟩],
        nodes := (0, initPoller.heap.length) :: initPoller.nodes,
        queue := initPoller.heap.length :: initPoller.queue } :=
  (C9_duplicate_add_fatal ⟨2, 100⟩ initPoller 0 5).2 (by rfl)

/-- C10: `NodeRemoved` for a node identifier absent from the registry is a
silent no-op: the step succeeds (no error signal) and returns the state
unchanged — registry, due queue and in-flight counter included. -/
theorem C10_remove_absent_noop (cfg : Config) (s : Poller) (nid : Nat)
    (h : alookup s.nodes nid = none) :
    step cfg s (.nodeRemoved nid) = some s := by
  simp [step, aerase_of_none s.nodes nid h]

theorem C10_witness :
    step ⟨2, 100⟩ ((run ⟨2, 100⟩ [Event.nodeAdded 0 5]).getD initPoller)
        (Event.nodeRemoved 3)
      = some ((run ⟨2, 100⟩ [Event.nodeAdded 0 5]).getD initPoller) :=
  C10_remove_absent_noop ⟨2, 100⟩
    ((run ⟨2, 100⟩ [Event.nodeAdded 0 5]).getD initPoller) 3 (by rfl)

end RayPoller
